import Mathlib

/-!
Shallow embedding of the `rust_vss` crate (Feldman verifiable secret
sharing) and proofs about it.

Modelling conventions: the arbitrary-precision unsigned integers
(`BigUint`) are modelled as `ℕ` and the signed ones (`BigInt`) as `ℤ`.
Rust's `%` on `BigInt` truncates towards zero; every `%` taken below is
applied to a non-negative dividend and positive divisor (the dividends are
proved non-negative in `div_mod_p_nonneg` and the fold invariants), where
truncated and Euclidean remainder coincide, so Lean's `%` (`Int.emod`) is
used.  Panics (`unwrap` on a negative `to_biguint`, `usize` underflow) are
modelled by `Option`.  Randomness is passed in as an explicit oracle
argument.  Channels (`Sender`) are modelled as abstract channel ids, and a
send is an observable `Output` event.
-/

/-- Sum `Σ_k a_k * x^(j+k)`: the `iter().enumerate()` power sum of
`vss::eval_poly_at`, with the enumeration index `j` made explicit. -/
def evalPolyAux (a : List ℕ) (x j : ℕ) : ℕ :=
  match a with
  | [] => 0
  | ai :: rest => ai * x ^ j + evalPolyAux rest x (j + 1)

/-- `vss::eval_poly_at`: evaluates `P(x) = Σ a_i x^i` (no modular reduction). -/
def eval_poly_at (a : List ℕ) (x : ℕ) : ℕ := evalPolyAux a x 0

/-- `vss::generate_shares`: the shares `(i, P(i) % q)` for `i = 1..=n`. -/
def generate_shares (a : List ℕ) (n q : ℕ) : List (ℕ × ℕ) :=
  (List.range n).map fun i => (i + 1, eval_poly_at a (i + 1) % q)

/-- The `for (j, c_i) in c.iter().enumerate()` accumulation of
`vss::verify_share`: `check = (check * c_i.modpow(i^j, p)) % p`. -/
def checkLoop (i : ℕ) (c : List ℕ) (p j check : ℕ) : ℕ :=
  match c with
  | [] => check
  | ci :: rest => checkLoop i rest p (j + 1) ((check * (ci ^ i ^ j % p)) % p)

/-- `vss::verify_share`: checks `g^s ≡ Π_j c_j^(i^j) (mod p)`. -/
def verify_share (i s g : ℕ) (c : List ℕ) (p : ℕ) : Bool :=
  g ^ s % p == checkLoop i c p 0 1

/-- `vss::generate_commitments`: `c_i = g^(a_i) mod p`. -/
def generate_commitments (a : List ℕ) (g p : ℕ) : List ℕ :=
  a.map fun ai => g ^ ai % p

/-- The `while r_1 != 0` loop of `vss::div_mod_p`, with an explicit fuel
argument (the remainder sequence strictly decreases, so the loop makes at
most `r1` further iterations; `modInverse` supplies sufficient fuel, see
`egcdLoop_fuel_irrel`).  The remainders stay non-negative throughout the
run, hence `r0 r1 : ℕ`, and `r0 - r0 / r1 * r1` is exact. -/
def egcdLoop (fuel : ℕ) (t0 t1 : ℤ) (r0 r1 : ℕ) : ℤ :=
  match fuel with
  | 0 => t0
  | fuel + 1 =>
    if r1 = 0 then t0
    else egcdLoop fuel t1 (t0 - (r0 / r1 : ℕ) * t1) r1 (r0 - r0 / r1 * r1)

/-- The divisor normalisation at the top of `vss::div_mod_p`:
`let b = if b < 0 { (b % m) + m } else { b }` (Rust `%` on `BigInt`
truncates towards zero, i.e. `Int.tmod`).  The result is non-negative and
is returned as `ℕ`. -/
def normDivisor (b : ℤ) (m : ℕ) : ℕ :=
  if b < 0 then (b.tmod m + m).toNat else b.toNat

/-- The "find inverse `t` of `b` mod `m`" part of `vss::div_mod_p`:
extended Euclid from `(t_0, t_1) = (0, 1)`, `(r_0, r_1) = (m, b)`,
followed by `if t_0 < 0 { t_0 + m }` ("ensure inverse is always
positive"). -/
def modInverse (b : ℤ) (m : ℕ) : ℤ :=
  let t0 := egcdLoop (normDivisor b m + 1) 0 1 m (normDivisor b m)
  if t0 < 0 then t0 + m else t0

/-- `vss::div_mod_p`: evaluates `a/b mod m` as `a * t` where `t` is the
inverse of `b` modulo `m`. -/
def div_mod_p (a b : ℤ) (m : ℕ) : ℤ := a * modInverse b m

/-- The inner `for (x_m, _) in shares` loop of `vss::reconstruct`: the
Lagrange coefficient `Π_{x_m ≠ x_j} x_m / (x_m - x_j) mod q` accumulated
from `prod = 1`. -/
def lagrangeProd (shares : List (ℕ × ℕ)) (xj : ℕ) (q : ℕ) : ℤ :=
  shares.foldl
    (fun prod pm =>
      if pm.1 ≠ xj then
        (prod * div_mod_p (pm.1 : ℤ) ((pm.1 : ℤ) - (xj : ℤ)) q) % (q : ℤ)
      else prod)
    1

/-- The accumulated `secret` of `vss::reconstruct` (a `BigInt` in the
source): `secret = (secret + y_j * prod) % q` over all shares. -/
def reconstructInt (shares : List (ℕ × ℕ)) (q : ℕ) : ℤ :=
  shares.foldl
    (fun secret pj => (secret + (pj.2 : ℤ) * lagrangeProd shares pj.1 q) % (q : ℤ))
    0

/-- `vss::reconstruct`: Lagrange interpolation at `x = 0` over `Z_q`.  The
final `secret.to_biguint().unwrap()` panics on a negative value, modelled
by `Int.toNat'` (it never does: see `reconstructInt_nonneg`). -/
def reconstruct (shares : List (ℕ × ℕ)) (q : ℕ) : Option ℕ :=
  (reconstructInt shares q).toNat'

/-- The coefficient vector built in `Dealer::new`:
`[vec![secret], vec![Dealer::gen_a(&q); t - 1]].concat()`.  `gen_a` draws
one random value below `q`; that single draw is the oracle argument `r`
(the `vec![_; t - 1]` macro clones it).  `t - 1` is `usize` subtraction,
which panics for `t = 0`, modelled as `none`. -/
def Dealer.coeffs (secret r t : ℕ) : Option (List ℕ) :=
  if t = 0 then none else some (secret :: List.replicate (t - 1) r)

/-- `rpc::Share`: a pair `(i, P(i))`. -/
abbrev Share := ℕ × ℕ

/-- `rpc::ShareInfo`: the tuple `(Share, g, c, p, q, t)`. -/
structure ShareInfo where
  share : Share
  g : ℕ
  c : List ℕ
  p : ℕ
  q : ℕ
  t : ℕ
deriving DecidableEq

/-- `rpc::RPC`; `Sender` handles are modelled as abstract channel ids. -/
inductive RPC where
  | Ping (other : ℕ)
  | RegSender (other : ℕ) (sender : ℕ)
  | RegShare (si : ShareInfo)
  | ReconstructShare (other : ℕ) (share : Share)
  | Reconstruct (sender : ℕ)
deriving DecidableEq

/-- An observable send performed while handling a message: an `RPC` posted
to a peer channel, or a reconstructed value posted to a result channel. -/
inductive Output where
  | send (chan : ℕ) (rpc : RPC)
  | sendResult (chan : ℕ) (value : ℕ)
deriving DecidableEq

/-- `HashMap::insert` on an association list: overwrite the entry with the
given key if present, otherwise append. -/
def insertMap {α : Type} (l : List (ℕ × α)) (k : ℕ) (v : α) : List (ℕ × α) :=
  match l with
  | [] => [(k, v)]
  | (k0, v0) :: rest =>
    if k0 = k then (k, v) :: rest else (k0, v0) :: insertMap rest k v

/-- The state of `Player::start`: the struct fields `id`, `senders`,
`share_info` together with the loop locals `reconstruct_send` and
`senders_shares`.  The two `HashMap`s are association lists. -/
structure PlayerState where
  id : ℕ
  senders : List (ℕ × ℕ)
  share_info : Option ShareInfo
  reconstruct_send : Option ℕ
  senders_shares : List (ℕ × Share)
deriving DecidableEq

/-- `Player::broadcast`: send `rpc` to every registered peer (a failed send
is only logged). -/
def Player.broadcast (st : PlayerState) (rpc : RPC) : List Output :=
  st.senders.map fun kv => Output.send kv.2 rpc

/-- One iteration of the `while let Ok(rpc) = self.rx.recv()` loop of
`Player::start` on message `rpc`: the updated state — `none` when the arm
executes `return` (ending the actor loop) or panics — together with the
messages sent while handling it. -/
def Player.step (st : PlayerState) (rpc : RPC) : Option PlayerState × List Output :=
  match rpc with
  | RPC.Ping _ => (some st, [])
  | RPC.RegSender other sender =>
    (some { st with senders := insertMap st.senders other sender }, [])
  | RPC.RegShare si =>
    if verify_share si.share.1 si.share.2 si.g si.c si.p then
      (some { st with share_info := some si }, [])
    else (none, [])
  | RPC.ReconstructShare other share =>
    match st.share_info with
    | none => (some st, [])
    | some si =>
      if verify_share share.1 share.2 si.g si.c si.p then
        if si.t ≤ (insertMap st.senders_shares other share).length then
          match reconstruct ((insertMap st.senders_shares other share).map Prod.snd) si.q with
          | none => (none, [])
          | some v =>
            (some { st with senders_shares := [], reconstruct_send := none },
             match st.reconstruct_send with
             | some s => [Output.sendResult s v]
             | none => [])
        else (some { st with senders_shares := insertMap st.senders_shares other share }, [])
      else (none, [])
  | RPC.Reconstruct sender =>
    match st.share_info with
    | none => (some st, [])
    | some si =>
      (some { st with reconstruct_send := some sender },
       Player.broadcast st (RPC.ReconstructShare st.id si.share))

/-- The polynomial `Σ a_i X^i` over a field whose coefficients are the
natural-number list `a` — the polynomial that `eval_poly_at` evaluates,
read in `ZMod q` (proof-side device for the interpolation argument). -/
noncomputable def polyOfCoeffs {F : Type*} [Semiring F] : List ℕ → Polynomial F
  | [] => 0
  | c :: rest => Polynomial.C (c : F) + Polynomial.X * polyOfCoeffs rest

/-- The `r_0 - q * r_1` update of the euclidean loop is the remainder. -/
theorem sub_div_mul_eq_mod (r0 r1 : ℕ) : r0 - r0 / r1 * r1 = r0 % r1 := by
  have h : r0 / r1 * r1 + r0 % r1 = r0 := Nat.div_add_mod' r0 r1
  omega

/-- Reduction modulo `n` preserves the congruence class. -/
theorem int_emod_modEq (a n : ℤ) : a % n ≡ a [ZMOD n] :=
  Int.emod_emod_of_dvd a dvd_rfl

/-- Unfolding of `egcdLoop` when the loop guard holds. -/
theorem egcdLoop_succ (f : ℕ) (t0 t1 : ℤ) (r0 r1 : ℕ) (h : r1 ≠ 0) :
    egcdLoop (f + 1) t0 t1 r0 r1 =
      egcdLoop f t1 (t0 - (r0 / r1 : ℕ) * t1) r1 (r0 - r0 / r1 * r1) := by
  simp [egcdLoop, h]

/-- The fuel argument of `egcdLoop` is irrelevant once it exceeds `r1`:
the remainder sequence strictly decreases, so the loop terminates before
the fuel is exhausted. -/
theorem egcdLoop_fuel_irrel (f1 : ℕ) : ∀ (f2 : ℕ) (t0 t1 : ℤ) (r0 r1 : ℕ),
    r1 < f1 → r1 < f2 → egcdLoop f1 t0 t1 r0 r1 = egcdLoop f2 t0 t1 r0 r1 := by
  induction f1 with
  | zero => intro f2 t0 t1 r0 r1 h1 _; omega
  | succ f ih =>
    intro f2 t0 t1 r0 r1 h1 h2
    obtain ⟨f2, rfl⟩ : ∃ k, f2 = k + 1 := ⟨f2 - 1, by omega⟩
    by_cases hr : r1 = 0
    · simp [egcdLoop, hr]
    · rw [egcdLoop_succ f t0 t1 r0 r1 hr, egcdLoop_succ f2 t0 t1 r0 r1 hr]
      have hlt : r0 - r0 / r1 * r1 < r1 := by
        rw [sub_div_mul_eq_mod]; exact Nat.mod_lt _ (Nat.pos_of_ne_zero hr)
      exact ih f2 _ _ _ _ (by omega) (by omega)

/-- Loop invariant of the extended euclidean algorithm in `div_mod_p`:
if `t_0·b ≡ r_0` and `t_1·b ≡ r_1 (mod m)` then the returned coefficient
`t` satisfies `t·b ≡ gcd(r_0, r_1) (mod m)`. -/
theorem egcdLoop_modEq (m bn : ℕ) : ∀ (fuel : ℕ) (t0 t1 : ℤ) (r0 r1 : ℕ),
    r1 < fuel →
    t0 * (bn : ℤ) ≡ (r0 : ℤ) [ZMOD (m : ℤ)] →
    t1 * (bn : ℤ) ≡ (r1 : ℤ) [ZMOD (m : ℤ)] →
    egcdLoop fuel t0 t1 r0 r1 * (bn : ℤ) ≡ (Nat.gcd r0 r1 : ℤ) [ZMOD (m : ℤ)] := by
  intro fuel
  induction fuel with
  | zero => intro t0 t1 r0 r1 h1 _ _; omega
  | succ f ih =>
    intro t0 t1 r0 r1 hf h0 h1
    by_cases hr : r1 = 0
    · subst hr
      simpa [egcdLoop, Nat.gcd_zero_right] using h0
    · rw [egcdLoop_succ f t0 t1 r0 r1 hr]
      have hlt : r0 - r0 / r1 * r1 < r1 := by
        rw [sub_div_mul_eq_mod]; exact Nat.mod_lt _ (Nat.pos_of_ne_zero hr)
      have hgcd : Nat.gcd r1 (r0 - r0 / r1 * r1) = Nat.gcd r0 r1 := by
        rw [sub_div_mul_eq_mod, Nat.gcd_comm r1, ← Nat.gcd_rec, Nat.gcd_comm]
      have hcast : ((r0 - r0 / r1 * r1 : ℕ) : ℤ) = (r0 : ℤ) - (r0 / r1 : ℕ) * (r1 : ℤ) := by
        have hle : r0 / r1 * r1 ≤ r0 := Nat.div_mul_le_self r0 r1
        push_cast [hle]
        ring
      have h1' : (t0 - (r0 / r1 : ℕ) * t1) * (bn : ℤ) ≡
          ((r0 - r0 / r1 * r1 : ℕ) : ℤ) [ZMOD (m : ℤ)] := by
        have e1 : (t0 - (r0 / r1 : ℕ) * t1) * (bn : ℤ) =
            t0 * bn - (r0 / r1 : ℕ) * (t1 * bn) := by ring
        rw [e1, hcast]
        exact h0.sub ((Int.ModEq.refl _).mul h1)
      rw [← hgcd]
      exact ih t1 _ r1 _ (by omega) h1 h1'

/-- Loop invariant bounding the Bezout coefficients of the euclidean loop:
with the (sign-alternating) determinant identity `t_0·r_1 - t_1·r_0 = ±m`
maintained, the returned coefficient satisfies `|t| ≤ m`.  This is what
makes the `if t_0 < 0 { t_0 + m }` normalisation of the source land in
`[0, m)`. -/
theorem egcdLoop_bound (m : ℕ) : ∀ (fuel : ℕ) (t0 t1 : ℤ) (r0 r1 : ℕ),
    r1 < fuel → 1 ≤ r0 → t0.natAbs ≤ m →
    ((t0 * r1 - t1 * r0 = -(m : ℤ) ∧ t0 ≤ 0 ∧ 0 ≤ t1) ∨
     (t0 * r1 - t1 * r0 = (m : ℤ) ∧ 0 ≤ t0 ∧ t1 ≤ 0)) →
    (egcdLoop fuel t0 t1 r0 r1).natAbs ≤ m := by
  intro fuel
  induction fuel with
  | zero => intro t0 t1 r0 r1 h1 _ _ _; omega
  | succ f ih =>
    intro t0 t1 r0 r1 hf hr0 ht0 hinv
    by_cases hr : r1 = 0
    · simpa [egcdLoop, hr] using ht0
    · rw [egcdLoop_succ f t0 t1 r0 r1 hr]
      have hlt : r0 - r0 / r1 * r1 < r1 := by
        rw [sub_div_mul_eq_mod]; exact Nat.mod_lt _ (Nat.pos_of_ne_zero hr)
      have hr1 : (1 : ℤ) ≤ (r1 : ℤ) := by exact_mod_cast Nat.pos_of_ne_zero hr
      have hr0' : (1 : ℤ) ≤ (r0 : ℤ) := by exact_mod_cast hr0
      have hq : (0 : ℤ) ≤ ((r0 / r1 : ℕ) : ℤ) := Int.natCast_nonneg _
      have hcast : ((r0 - r0 / r1 * r1 : ℕ) : ℤ) = (r0 : ℤ) - (r0 / r1 : ℕ) * (r1 : ℤ) := by
        have hle : r0 / r1 * r1 ≤ r0 := Nat.div_mul_le_self r0 r1
        push_cast [hle]
        ring
      -- the incoming `t1` is bounded by `m`
      have ht1 : t1.natAbs ≤ m := by
        rcases hinv with ⟨hdet, hs0, hs1⟩ | ⟨hdet, hs0, hs1⟩
        · have hp : 0 ≤ -t0 * (r1 : ℤ) := mul_nonneg (by omega) (by omega)
          have hub : t1 * r0 ≤ (m : ℤ) := by nlinarith
          have : t1 ≤ t1 * r0 := le_mul_of_one_le_right hs1 hr0'
          omega
        · have hp : 0 ≤ t0 * (r1 : ℤ) := mul_nonneg hs0 (by omega)
          have hub : -t1 * r0 ≤ (m : ℤ) := by nlinarith
          have : -t1 ≤ -t1 * r0 := le_mul_of_one_le_right (by omega) hr0'
          omega
      refine ih t1 (t0 - (r0 / r1 : ℕ) * t1) r1 (r0 - r0 / r1 * r1) (by omega)
        (Nat.pos_of_ne_zero hr) ht1 ?_
      rcases hinv with ⟨hdet, hs0, hs1⟩ | ⟨hdet, hs0, hs1⟩
      · refine Or.inr ⟨?_, hs1, ?_⟩
        · rw [hcast]; nlinarith [hdet]
        · have : 0 ≤ ((r0 / r1 : ℕ) : ℤ) * t1 := mul_nonneg hq hs1
          omega
      · refine Or.inl ⟨?_, hs1, ?_⟩
        · rw [hcast]; nlinarith [hdet]
        · have : ((r0 / r1 : ℕ) : ℤ) * t1 ≤ 0 := mul_nonpos_of_nonneg_of_nonpos hq hs1
          omega

/-- Rust's truncating `%` on a negative dividend, in terms of `Int.emod`. -/
theorem tmod_of_neg (b : ℤ) (m : ℕ) (hb : b < 0) : b.tmod m = -((-b) % (m : ℤ)) := by
  have h1 : b.tdiv (m : ℤ) = -((-b).tdiv (m : ℤ)) := by
    have := Int.neg_tdiv (-b) (m : ℤ)
    simpa using this.symm
  have h3 : (-b).tmod (m : ℤ) = (-b) % (m : ℤ) :=
    Int.tmod_eq_emod (by omega) (Int.natCast_nonneg m)
  have h4 : (-b).tmod (m : ℤ) = (-b) - (m : ℤ) * ((-b).tdiv (m : ℤ)) := Int.tmod_def _ _
  rw [Int.tmod_def, h1, mul_neg]
  linarith [h3, h4]

/-- The normalised divisor of `div_mod_p` is congruent to the original
divisor modulo `m`. -/
theorem normDivisor_modEq (b : ℤ) (m : ℕ) (hm : 0 < m) :
    ((normDivisor b m : ℕ) : ℤ) ≡ b [ZMOD (m : ℤ)] := by
  by_cases hb : b < 0
  · simp only [normDivisor, if_pos hb]
    have ht := tmod_of_neg b m hb
    have hmz : ((m : ℤ)) ≠ 0 := by exact_mod_cast hm.ne'
    have hmod : 0 ≤ (-b) % (m : ℤ) := Int.emod_nonneg _ hmz
    have hlt : (-b) % (m : ℤ) < m := Int.emod_lt_of_pos _ (by exact_mod_cast hm)
    have hnn : 0 ≤ b.tmod m + m := by rw [ht]; omega
    rw [Int.toNat_of_nonneg hnn, ht]
    have h1 : -((-b) % (m : ℤ)) ≡ b [ZMOD (m : ℤ)] := by
      simpa using (int_emod_modEq (-b) (m : ℤ)).neg
    have h2 : (m : ℤ) ≡ 0 [ZMOD (m : ℤ)] :=
      Int.modEq_iff_dvd.mpr (by simpa using dvd_neg.mpr (dvd_refl (m : ℤ)))
    simpa using h1.add h2
  · push_neg at hb
    simp only [normDivisor, if_neg (not_lt.mpr hb)]
    rw [Int.toNat_of_nonneg hb]

/-- A negative divisor not divisible by `m` is normalised into `(0, m)`. -/
theorem normDivisor_bounds (b : ℤ) (m : ℕ) (hb : b < 0) (hm : 0 < m)
    (hdvd : ¬ ((m : ℤ) ∣ b)) : 0 < normDivisor b m ∧ normDivisor b m < m := by
  simp only [normDivisor, if_pos hb]
  have ht := tmod_of_neg b m hb
  have hmz : ((m : ℤ)) ≠ 0 := by exact_mod_cast hm.ne'
  have hmod : 0 ≤ (-b) % (m : ℤ) := Int.emod_nonneg _ hmz
  have hlt : (-b) % (m : ℤ) < m := Int.emod_lt_of_pos _ (by exact_mod_cast hm)
  have hne : (-b) % (m : ℤ) ≠ 0 := by
    intro h0
    exact hdvd (by simpa using (Int.dvd_of_emod_eq_zero h0).neg_right)
  rw [ht]
  omega

/-- With zero modulus the euclidean loop returns `0` or `1` (needed only to
show `modInverse` is non-negative for every input). -/
theorem egcdLoop_mzero (nd : ℕ) :
    egcdLoop (nd + 1) 0 1 0 nd = 0 ∨ egcdLoop (nd + 1) 0 1 0 nd = 1 := by
  by_cases h : nd = 0
  · subst h; left; simp [egcdLoop]
  · obtain ⟨k, rfl⟩ : ∃ k, nd = k + 1 := ⟨nd - 1, by omega⟩
    right
    rw [egcdLoop_succ _ _ _ _ _ h]
    simp [egcdLoop, Nat.zero_div]

/-- The Bezout coefficient computed inside `modInverse` has absolute value
at most `m`. -/
theorem egcd_coeff_bound (b : ℤ) (m : ℕ) (hm : 0 < m) :
    (egcdLoop (normDivisor b m + 1) 0 1 m (normDivisor b m)).natAbs ≤ m := by
  refine egcdLoop_bound m (normDivisor b m + 1) 0 1 m (normDivisor b m)
    (by omega) hm (by simp) (Or.inl ⟨?_, le_refl 0, zero_le_one⟩)
  push_cast
  ring

/-- The inverse coefficient returned by `div_mod_p` is never negative. -/
theorem modInverse_nonneg (b : ℤ) (m : ℕ) : 0 ≤ modInverse b m := by
  by_cases hm : 0 < m
  · have hbd := egcd_coeff_bound b m hm
    simp only [modInverse]
    split <;> omega
  · have hm0 : m = 0 := by omega
    subst hm0
    have h := egcdLoop_mzero (normDivisor b 0)
    simp only [modInverse]
    rcases h with h | h <;> rw [h] <;> simp

/-- `div_mod_p` maps a non-negative numerator to a non-negative result. -/
theorem div_mod_p_nonneg (a b : ℤ) (m : ℕ) (ha : 0 ≤ a) : 0 ≤ div_mod_p a b m :=
  mul_nonneg ha (modInverse_nonneg b m)

/-- The inverse coefficient satisfies `t·b' ≡ gcd(m, b') (mod m)` where
`b'` is the normalised divisor. -/
theorem modInverse_modEq (b : ℤ) (m : ℕ) (hm : 0 < m) :
    modInverse b m * ((normDivisor b m : ℕ) : ℤ) ≡
      (Nat.gcd m (normDivisor b m) : ℤ) [ZMOD (m : ℤ)] := by
  have h0 : (0 : ℤ) * ((normDivisor b m : ℕ) : ℤ) ≡ (m : ℤ) [ZMOD (m : ℤ)] := by
    have h2 : (m : ℤ) ≡ 0 [ZMOD (m : ℤ)] :=
      Int.modEq_iff_dvd.mpr (by simpa using dvd_neg.mpr (dvd_refl (m : ℤ)))
    simpa using h2.symm
  have h1 : (1 : ℤ) * ((normDivisor b m : ℕ) : ℤ) ≡
      ((normDivisor b m : ℕ) : ℤ) [ZMOD (m : ℤ)] := by
    simpa using Int.ModEq.refl ((normDivisor b m : ℕ) : ℤ)
  have hmain := egcdLoop_modEq m (normDivisor b m) (normDivisor b m + 1) 0 1 m
    (normDivisor b m) (by omega) h0 h1
  simp only [modInverse]
  split
  · rename_i hneg
    refine Int.ModEq.trans ?_ hmain
    have hsh : egcdLoop (normDivisor b m + 1) 0 1 m (normDivisor b m) + m ≡
        egcdLoop (normDivisor b m + 1) 0 1 m (normDivisor b m) [ZMOD (m : ℤ)] := by
      have h2 : (m : ℤ) ≡ 0 [ZMOD (m : ℤ)] :=
        Int.modEq_iff_dvd.mpr (by simpa using dvd_neg.mpr (dvd_refl (m : ℤ)))
      simpa using (Int.ModEq.refl (egcdLoop (normDivisor b m + 1) 0 1 m (normDivisor b m))).add h2
    exact hsh.mul (Int.ModEq.refl _)
  · exact hmain

/-- A divisor coprime to the modulus stays coprime after normalisation. -/
theorem normDivisor_gcd (b : ℤ) (m : ℕ) (hm : 0 < m) (hg : Int.gcd b m = 1) :
    Nat.gcd m (normDivisor b m) = 1 := by
  obtain ⟨k, hk⟩ := Int.modEq_iff_dvd.mp (normDivisor_modEq b m hm)
  have hco : IsCoprime b (m : ℤ) := Int.gcd_eq_one_iff_coprime.mp hg
  have hco2 : IsCoprime ((normDivisor b m : ℕ) : ℤ) (m : ℤ) := by
    have he : ((normDivisor b m : ℕ) : ℤ) = b + (m : ℤ) * (-k) := by
      rw [mul_neg]; linarith [hk]
    rw [he]
    exact hco.add_mul_left_left (-k)
  have h1 := Int.gcd_eq_one_iff_coprime.mpr hco2
  rw [Int.gcd_natCast_natCast] at h1
  rwa [Nat.gcd_comm]

/-- In `ZMod m`, the inverse coefficient of `div_mod_p` is a two-sided
inverse of the divisor. -/
theorem modInverse_mul_cast (b : ℤ) (m : ℕ) (hm : 0 < m) (hg : Int.gcd b m = 1) :
    ((modInverse b m : ℤ) : ZMod m) * ((b : ℤ) : ZMod m) = 1 := by
  have h5 := (ZMod.intCast_eq_intCast_iff _ _ _).mpr (modInverse_modEq b m hm)
  rw [normDivisor_gcd b m hm hg] at h5
  push_cast at h5
  have hnd := (ZMod.intCast_eq_intCast_iff _ _ _).mpr (normDivisor_modEq b m hm)
  push_cast at hnd
  rw [hnd] at h5
  simpa using h5

/-- `div_mod_p a b m` is `a·b⁻¹` in `ZMod m` whenever `gcd(b, m) = 1`. -/
theorem div_mod_p_cast (a b : ℤ) (m : ℕ) (hm : 0 < m) (hg : Int.gcd b m = 1) :
    ((div_mod_p a b m : ℤ) : ZMod m) = (a : ZMod m) * ((b : ℤ) : ZMod m)⁻¹ := by
  have hinv : ((b : ℤ) : ZMod m)⁻¹ = ((modInverse b m : ℤ) : ZMod m) :=
    ZMod.inv_eq_of_mul_eq_one m _ _ (by rw [mul_comm]; exact modInverse_mul_cast b m hm hg)
  simp only [div_mod_p]
  push_cast
  rw [hinv]

/-- A non-negative integer stays non-negative after `% q` (also for `q = 0`). -/
theorem emod_natCast_nonneg (x : ℤ) (q : ℕ) (hx : 0 ≤ x) : 0 ≤ x % (q : ℤ) := by
  rcases Nat.eq_zero_or_pos q with h | h
  · subst h; simpa using hx
  · exact Int.emod_nonneg x (by exact_mod_cast h.ne')

/-- The Lagrange coefficient accumulated by `reconstruct` is non-negative:
`div_mod_p` returns non-negative values on the non-negative numerators
`x_m`, so Rust's truncating `%` agrees with the Euclidean `%` used here. -/
theorem lagrangeProd_nonneg (shares : List (ℕ × ℕ)) (xj q : ℕ) :
    0 ≤ lagrangeProd shares xj q := by
  suffices h : ∀ (L : List (ℕ × ℕ)) (p0 : ℤ), 0 ≤ p0 →
      0 ≤ List.foldl
        (fun prod pm =>
          if pm.1 ≠ xj then
            (prod * div_mod_p (pm.1 : ℤ) ((pm.1 : ℤ) - (xj : ℤ)) q) % (q : ℤ)
          else prod)
        p0 L by
    exact h shares 1 zero_le_one
  intro L
  induction L with
  | nil => intro p0 h0; simpa using h0
  | cons pm rest ih =>
    intro p0 h0
    simp only [List.foldl_cons]
    by_cases hc : pm.1 ≠ xj
    · rw [if_pos hc]
      exact ih _ (emod_natCast_nonneg _ _
        (mul_nonneg h0 (div_mod_p_nonneg _ _ _ (Int.natCast_nonneg _))))
    · rw [if_neg hc]
      exact ih _ h0

/-- The accumulated `secret` of `reconstruct` is non-negative, so the final
`to_biguint().unwrap()` never panics. -/
theorem reconstructInt_nonneg (shares : List (ℕ × ℕ)) (q : ℕ) :
    0 ≤ reconstructInt shares q := by
  suffices h : ∀ (L : List (ℕ × ℕ)) (s0 : ℤ), 0 ≤ s0 →
      0 ≤ List.foldl
        (fun secret pj => (secret + (pj.2 : ℤ) * lagrangeProd shares pj.1 q) % (q : ℤ))
        s0 L by
    exact h shares 0 le_rfl
  intro L
  induction L with
  | nil => intro s0 h0; simpa using h0
  | cons pj rest ih =>
    intro s0 h0
    simp only [List.foldl_cons]
    exact ih _ (emod_natCast_nonneg _ _
      (add_nonneg h0 (mul_nonneg (Int.natCast_nonneg _) (lagrangeProd_nonneg shares pj.1 q))))

/-- The accumulated `secret` of `reconstruct` stays below the modulus. -/
theorem reconstructInt_lt (shares : List (ℕ × ℕ)) (q : ℕ) (hq : 0 < q) :
    reconstructInt shares q < q := by
  suffices h : ∀ (L : List (ℕ × ℕ)) (s0 : ℤ), s0 < q →
      List.foldl
        (fun secret pj => (secret + (pj.2 : ℤ) * lagrangeProd shares pj.1 q) % (q : ℤ))
        s0 L < q by
    exact h shares 0 (by exact_mod_cast hq)
  intro L
  induction L with
  | nil => intro s0 h0; simpa using h0
  | cons pj rest ih =>
    intro s0 _
    simp only [List.foldl_cons]
    exact ih _ (Int.emod_lt_of_pos _ (by exact_mod_cast hq))

/-- On a non-negative accumulator, `reconstruct` returns `some`. -/
theorem reconstruct_eq_some (shares : List (ℕ × ℕ)) (q : ℕ) :
    reconstruct shares q = some (reconstructInt shares q).toNat := by
  obtain ⟨n, hn⟩ := Int.eq_ofNat_of_zero_le (reconstructInt_nonneg shares q)
  simp [reconstruct, hn, Int.toNat']

/-- C5: for every modulus `m > 1` and nonzero divisor `b` (possibly
negative) with `gcd(b, m) = 1`, `div_mod_p(a, b, m)` is congruent to
`a` times the inverse of `b` modulo `m` for every `a`; a negative divisor
input is normalised into `[0, m)` and a negative extended-Euclid
coefficient is normalised into `[0, m)`; in particular
`(b * div_mod_p(1, b, m)) mod m = 1`. -/
theorem div_mod_p_modular_inverse (m : ℕ) (b : ℤ) (hm : 1 < m) (hb : b ≠ 0)
    (hg : Int.gcd b m = 1) :
    (∀ a : ℤ, ((div_mod_p a b m : ℤ) : ZMod m) = (a : ZMod m) * ((b : ℤ) : ZMod m)⁻¹) ∧
    (b * div_mod_p 1 b m) % (m : ℤ) = 1 ∧
    (b < 0 → 0 < normDivisor b m ∧ normDivisor b m < m) ∧
    (egcdLoop (normDivisor b m + 1) 0 1 m (normDivisor b m) < 0 →
      0 ≤ modInverse b m ∧ modInverse b m < m) := by
  have hm0 : 0 < m := by omega
  refine ⟨fun a => div_mod_p_cast a b m hm0 hg, ?_, ?_, ?_⟩
  · have hmain := modInverse_modEq b m hm0
    rw [normDivisor_gcd b m hm0 hg] at hmain
    have hnd := normDivisor_modEq b m hm0
    have hb' : b * div_mod_p 1 b m ≡ 1 [ZMOD (m : ℤ)] := by
      have he : b * div_mod_p 1 b m = b * modInverse b m := by
        simp [div_mod_p]
      rw [he]
      calc b * modInverse b m
          ≡ ((normDivisor b m : ℕ) : ℤ) * modInverse b m [ZMOD (m : ℤ)] :=
            hnd.symm.mul (Int.ModEq.refl _)
        _ = modInverse b m * ((normDivisor b m : ℕ) : ℤ) := by ring
        _ ≡ ((1 : ℕ) : ℤ) [ZMOD (m : ℤ)] := hmain
        _ = 1 := by norm_num
    have h1m : (1 : ℤ) % (m : ℤ) = 1 :=
      Int.emod_eq_of_lt (by norm_num) (by exact_mod_cast hm)
    calc (b * div_mod_p 1 b m) % (m : ℤ) = (1 : ℤ) % (m : ℤ) := hb'
      _ = 1 := h1m
  · intro hbneg
    have hdvd : ¬ ((m : ℤ) ∣ b) := by
      intro hd
      have hmn : m ∣ b.natAbs := by
        have h := Int.natAbs_dvd_natAbs.mpr hd
        simpa using h
      have hgn : Int.gcd b (m : ℤ) = Nat.gcd b.natAbs m := by
        simp [Int.gcd]
      have hdg : m ∣ Nat.gcd b.natAbs m := Nat.dvd_gcd hmn dvd_rfl
      rw [← hgn, hg] at hdg
      exact absurd (Nat.dvd_one.mp hdg) (by omega)
    exact normDivisor_bounds b m hbneg hm0 hdvd
  · intro hneg
    refine ⟨modInverse_nonneg b m, ?_⟩
    simp only [modInverse, if_pos hneg]
    omega

/-- Witness for C5 at the concrete input `m = 7`, `b = -3` (a negative
divisor): the round-trip identity holds and the divisor is normalised into
`(0, 7)`. -/
theorem div_mod_p_modular_inverse_holds :
    ((-3 : ℤ) * div_mod_p 1 (-3) 7) % (7 : ℤ) = 1 ∧
    (0 < normDivisor (-3) 7 ∧ normDivisor (-3) 7 < 7) := by
  have h := div_mod_p_modular_inverse 7 (-3) (by norm_num) (by norm_num) (by decide)
  exact ⟨h.2.1, h.2.2.1 (by norm_num)⟩

/-- C6: `reconstruct(shares, q)` is total and performs no threshold check:
on every list of shares with pairwise-distinct x-coordinates — the empty
list and under-threshold lists included — it returns `some` value in
`[0, q)` and never errors. -/
theorem reconstruct_total_in_range (shares : List (ℕ × ℕ)) (q : ℕ) (hq : 0 < q)
    (hx : shares.Pairwise fun p1 p2 => p1.1 ≠ p2.1) :
    ∃ v, reconstruct shares q = some v ∧ v < q := by
  refine ⟨(reconstructInt shares q).toNat, reconstruct_eq_some shares q, ?_⟩
  have h1 := reconstructInt_lt shares q hq
  omega

/-- Witness for C6 at the empty share list with `q = 7`. -/
theorem reconstruct_total_in_range_holds :
    ∃ v, reconstruct [] 7 = some v ∧ v < 7 :=
  reconstruct_total_in_range [] 7 (by norm_num) (List.Pairwise.nil)

/-- Exponents may be reduced modulo `q` under a base satisfying `g^q = 1`. -/
theorem pow_mod_exp {M : Type*} [Monoid M] (g : M) (q E : ℕ) (h : g ^ q = 1) :
    g ^ (E % q) = g ^ E := by
  conv_rhs => rw [← Nat.div_add_mod E q]
  rw [pow_add, pow_mul, h, one_pow, one_mul]

/-- The commitment-product accumulator of `verify_share` stays below `p`
(after the first reduction, or when the seed already is). -/
theorem checkLoop_lt (i p : ℕ) (hp : 0 < p) : ∀ (c : List ℕ) (j ch : ℕ),
    ch < p ∨ c ≠ [] → checkLoop i c p j ch < p := by
  intro c
  induction c with
  | nil =>
    intro j ch h
    rcases h with h | h
    · simpa [checkLoop] using h
    · simp at h
  | cons a rest ih =>
    intro j ch _
    simp only [checkLoop]
    exact ih (j + 1) _ (Or.inl (Nat.mod_lt _ hp))

/-- In `ZMod p`, the commitment product of `verify_share` over the
commitments `g^(a_k) mod p` equals `g` raised to the (index-shifted)
polynomial value: `Π_k (g^(a_k))^(x^(j+k)) = g^(Σ_k a_k x^(j+k))`. -/
theorem checkLoop_cast (g p x : ℕ) : ∀ (aL : List ℕ) (j ch : ℕ),
    ((checkLoop x (aL.map fun ak => g ^ ak % p) p j ch : ℕ) : ZMod p) =
      (ch : ZMod p) * (g : ZMod p) ^ evalPolyAux aL x j := by
  intro aL
  induction aL with
  | nil => intro j ch; simp [checkLoop, evalPolyAux]
  | cons ak rest ih =>
    intro j ch
    calc ((checkLoop x ((ak :: rest).map fun t => g ^ t % p) p j ch : ℕ) : ZMod p)
        = ((checkLoop x (rest.map fun t => g ^ t % p) p (j + 1)
            ((ch * ((g ^ ak % p) ^ x ^ j % p)) % p) : ℕ) : ZMod p) := by
          simp [checkLoop]
      _ = (((ch * ((g ^ ak % p) ^ x ^ j % p)) % p : ℕ) : ZMod p) *
            (g : ZMod p) ^ evalPolyAux rest x (j + 1) := ih (j + 1) _
      _ = (ch : ZMod p) * (g : ZMod p) ^ evalPolyAux (ak :: rest) x j := by
          push_cast [ZMod.natCast_mod]
          simp only [evalPolyAux, pow_add, pow_mul]
          ring

/-- C1: every share produced by `generate_shares` passes `verify_share`
against the dealer's own commitments: for `n ≥ t ≥ 1` (with `t` the
length of the coefficient vector), primes `q` and `p` with `q ∣ p - 1`,
`g` of order `q` modulo `p`, and all coefficients (the secret `a_0`
included) in `[0, q)`, every `(x, y)` in `generate_shares a n q`
satisfies `verify_share x y g (generate_commitments a g p) p = true`. -/
theorem generated_shares_verify (a : List ℕ) (n q p g : ℕ)
    (ht1 : 1 ≤ a.length) (htn : a.length ≤ n)
    (hq : q.Prime) (hp : p.Prime) (hdvd : q ∣ p - 1)
    (horder : orderOf ((g : ZMod p)) = q)
    (ha : ∀ ai ∈ a, ai < q) :
    ∀ xy ∈ generate_shares a n q,
      verify_share xy.1 xy.2 g (generate_commitments a g p) p = true := by
  intro xy hxy
  obtain ⟨i, hi, rfl⟩ := List.mem_map.mp hxy
  have hp1 : 1 < p := hp.one_lt
  have hgq : ((g : ZMod p)) ^ q = 1 := by
    rw [← horder]; exact pow_orderOf_eq_one _
  have hlhs : ((g ^ (eval_poly_at a (i + 1) % q) % p : ℕ) : ZMod p) =
      (g : ZMod p) ^ eval_poly_at a (i + 1) := by
    rw [ZMod.natCast_mod, Nat.cast_pow]
    exact pow_mod_exp _ _ _ hgq
  have hrhs : ((checkLoop (i + 1) (generate_commitments a g p) p 0 1 : ℕ) : ZMod p) =
      (g : ZMod p) ^ eval_poly_at a (i + 1) := by
    have h := checkLoop_cast g p (i + 1) a 0 1
    simpa [generate_commitments, eval_poly_at] using h
  have h1 : g ^ (eval_poly_at a (i + 1) % q) % p < p := Nat.mod_lt _ (by omega)
  have h2 : checkLoop (i + 1) (generate_commitments a g p) p 0 1 < p := by
    refine checkLoop_lt (i + 1) p (by omega) _ 0 1 (Or.inr ?_)
    have hne : a ≠ [] := List.ne_nil_of_length_pos (by omega)
    simpa [generate_commitments] using hne
  have heq : g ^ (eval_poly_at a (i + 1) % q) % p =
      checkLoop (i + 1) (generate_commitments a g p) p 0 1 := by
    have hc := hlhs.trans hrhs.symm
    have hv := congrArg ZMod.val hc
    rwa [ZMod.val_cast_of_lt h1, ZMod.val_cast_of_lt h2] at hv
  simpa [verify_share] using heq

/-- Witness for C1 at the concrete instance `p = 11`, `q = 5`, `g = 3`
(of order 5 mod 11), `a = [0, 3, 4]`, `n = 5`: the share `(3, 0)` is
generated and verifies. -/
theorem generated_shares_verify_holds :
    verify_share 3 0 3 (generate_commitments [0, 3, 4] 3 11) 11 = true := by
  haveI h5 : Fact (Nat.Prime 5) := ⟨by norm_num⟩
  have horder : orderOf (((3 : ℕ) : ZMod 11)) = 5 := by
    refine orderOf_eq_prime ?_ ?_ <;> decide
  exact generated_shares_verify [0, 3, 4] 5 5 11 3 (by norm_num) (by norm_num)
    (by norm_num) (by norm_num) (by norm_num) horder (by decide) (3, 0) (by decide)

/-- Keys present after a `HashMap::insert` were present before or are the
inserted key. -/
theorem insertMap_mem {α : Type} (l : List (ℕ × α)) (k0 : ℕ) (v0 : α) :
    ∀ k v, (k, v) ∈ insertMap l k0 v0 → (k, v) ∈ l ∨ k = k0 := by
  induction l with
  | nil =>
    intro k v h
    simp only [insertMap, List.mem_singleton] at h
    right
    exact congrArg Prod.fst h
  | cons kv rest ih =>
    intro k v h
    obtain ⟨a, b⟩ := kv
    simp only [insertMap] at h
    by_cases hak : a = k0
    · rw [if_pos hak] at h
      rcases List.mem_cons.mp h with h | h
      · right
        exact congrArg Prod.fst h
      · left
        exact List.mem_cons_of_mem _ h
    · rw [if_neg hak] at h
      rcases List.mem_cons.mp h with h | h
      · left
        exact List.mem_cons.mpr (Or.inl h)
      · rcases ih k v h with h | h
        · left
          exact List.mem_cons_of_mem _ h
        · right
          exact h

/-- Refutation of C4 as stated: a `ReconstructShare` whose share fails
verification does not leave the player waiting for further messages — the
arm executes `return`, ending `Player::start`'s message loop (`none`).
Concrete input: commitments `[1, 5, 4]`, `g = 3`, `p = 11` (from the
repository's own test data) and the forged share `(1, 3)`. -/
theorem reconstruct_share_invalid_claim_fails :
    (Player.step
      (⟨1, [(2, 102)], some ⟨(1, 2), 3, [1, 5, 4], 11, 5, 2⟩, none, []⟩ : PlayerState)
      (RPC.ReconstructShare 2 (1, 3))).1 = none := by
  decide

/-- C4 (amended): when a player holding `ShareInfo` receives a
`ReconstructShare` whose share fails `verify_share` against its stored
commitments, it rejects that share (the accumulator is untouched — the
state is discarded) but it does not continue: it logs and terminates its
message loop, exactly as on an own-share failure. -/
theorem reconstruct_share_invalid_halts (st : PlayerState) (oid : ℕ) (osh : Share)
    (si : ShareInfo) (hsi : st.share_info = some si)
    (hv : verify_share osh.1 osh.2 si.g si.c si.p = false) :
    Player.step st (RPC.ReconstructShare oid osh) = (none, []) := by
  simp [Player.step, hsi, hv]

/-- Witness for the amended C4 at the same concrete forged share. -/
theorem reconstruct_share_invalid_halts_holds :
    Player.step
      (⟨1, [(2, 102)], some ⟨(1, 2), 3, [1, 5, 4], 11, 5, 2⟩, none, []⟩ : PlayerState)
      (RPC.ReconstructShare 2 (1, 3)) = (none, []) :=
  reconstruct_share_invalid_halts _ 2 (1, 3) ⟨(1, 2), 3, [1, 5, 4], 11, 5, 2⟩ rfl (by decide)

/-- C7: when a verified `ReconstructShare` brings the accumulator to the
threshold `t`, the player reconstructs over the accumulated shares,
delivers the result to the recorded result channel at most once (only if
one is pending; the `take()` consumes the channel either way) and clears
the accumulator, so the accumulator is empty — and no channel is pending —
at the start of every subsequent round. -/
theorem threshold_reached_round (st : PlayerState) (oid : ℕ) (osh : Share)
    (si : ShareInfo) (v : ℕ) (hsi : st.share_info = some si)
    (hv : verify_share osh.1 osh.2 si.g si.c si.p = true)
    (hth : si.t ≤ (insertMap st.senders_shares oid osh).length)
    (hrec : reconstruct ((insertMap st.senders_shares oid osh).map Prod.snd) si.q = some v) :
    Player.step st (RPC.ReconstructShare oid osh) =
      (some { st with senders_shares := [], reconstruct_send := none },
       match st.reconstruct_send with
       | some s => [Output.sendResult s v]
       | none => []) := by
  simp [Player.step, hsi, hv, hth, hrec]

/-- Witness for C7: with threshold `t = 1`, a pending result channel `0`
and a valid share `(2, 2)`, the player delivers `2` once and clears both
the accumulator and the channel. -/
theorem threshold_reached_round_holds :
    Player.step
      (⟨1, [], some ⟨(1, 2), 3, [1, 5, 4], 11, 5, 1⟩, some 0, []⟩ : PlayerState)
      (RPC.ReconstructShare 2 (2, 2)) =
      (some (⟨1, [], some ⟨(1, 2), 3, [1, 5, 4], 11, 5, 1⟩, none, []⟩ : PlayerState),
       [Output.sendResult 0 2]) :=
  threshold_reached_round _ 2 (2, 2) ⟨(1, 2), 3, [1, 5, 4], 11, 5, 1⟩ 2 rfl
    (by decide) (by decide) (by decide)

/-- C9: handling `Reconstruct` never modifies the accumulator or the
stored `ShareInfo` — it only records the result channel and broadcasts the
player's own share to the registered peers, and does nothing at all
without `ShareInfo`; moreover the accumulator changes only while handling
a `ReconstructShare`, and any key it gains is the sending peer's id (so a
player inserts its own share only if a `ReconstructShare` arrives carrying
its own id, which `broadcast` never sends to itself since the registry
holds only peers). -/
theorem reconstruct_trigger_frame :
    (∀ (st : PlayerState) (si : ShareInfo) (ch : ℕ), st.share_info = some si →
      Player.step st (RPC.Reconstruct ch) =
        (some { st with reconstruct_send := some ch },
         Player.broadcast st (RPC.ReconstructShare st.id si.share))) ∧
    (∀ (st : PlayerState) (ch : ℕ), st.share_info = none →
      Player.step st (RPC.Reconstruct ch) = (some st, [])) ∧
    (∀ (st : PlayerState) (msg : RPC) (st' : PlayerState) (outs : List Output),
      Player.step st msg = (some st', outs) →
      st'.senders_shares ≠ st.senders_shares →
      ∃ oid sh, msg = RPC.ReconstructShare oid sh) ∧
    (∀ (st : PlayerState) (oid : ℕ) (sh : Share) (st' : PlayerState) (outs : List Output),
      Player.step st (RPC.ReconstructShare oid sh) = (some st', outs) →
      ∀ k v, (k, v) ∈ st'.senders_shares → (k, v) ∈ st.senders_shares ∨ k = oid) := by
  refine ⟨?_, ?_, ?_, ?_⟩
  · intro st si ch hsi
    simp [Player.step, hsi]
  · intro st ch hsi
    simp [Player.step, hsi]
  · intro st msg st' outs hstep hne
    cases msg with
    | Ping o =>
      simp only [Player.step, Prod.mk.injEq, Option.some.injEq] at hstep
      exact absurd (by rw [← hstep.1]) hne
    | RegSender o s =>
      simp only [Player.step, Prod.mk.injEq, Option.some.injEq] at hstep
      exact absurd (by rw [← hstep.1]) hne
    | RegShare si =>
      simp only [Player.step] at hstep
      split at hstep
      · simp only [Prod.mk.injEq, Option.some.injEq] at hstep
        exact absurd (by rw [← hstep.1]) hne
      · simp at hstep
    | ReconstructShare oid sh => exact ⟨oid, sh, rfl⟩
    | Reconstruct ch =>
      simp only [Player.step] at hstep
      split at hstep
      · simp only [Prod.mk.injEq, Option.some.injEq] at hstep
        exact absurd (by rw [← hstep.1]) hne
      · simp only [Prod.mk.injEq, Option.some.injEq] at hstep
        exact absurd (by rw [← hstep.1]) hne
  · intro st oid sh st' outs hstep k v hk
    simp only [Player.step] at hstep
    split at hstep
    · simp only [Prod.mk.injEq, Option.some.injEq] at hstep
      rw [← hstep.1] at hk
      exact Or.inl hk
    · split at hstep
      · split at hstep
        · split at hstep
          · simp at hstep
          · simp only [Prod.mk.injEq, Option.some.injEq] at hstep
            rw [← hstep.1] at hk
            simp at hk
        · simp only [Prod.mk.injEq, Option.some.injEq] at hstep
          rw [← hstep.1] at hk
          exact insertMap_mem st.senders_shares oid sh k v hk
      · simp at hstep

/-- Witness for C9: both `Reconstruct` arms at concrete states — with a
stored share the channel is recorded and the share broadcast to the two
registered peers; without one, nothing happens. -/
theorem reconstruct_trigger_frame_holds :
    Player.step
      (⟨1, [(2, 102), (3, 103)], some ⟨(1, 2), 3, [1, 5, 4], 11, 5, 2⟩, none,
        [(9, (9, 9))]⟩ : PlayerState) (RPC.Reconstruct 0) =
      (some (⟨1, [(2, 102), (3, 103)], some ⟨(1, 2), 3, [1, 5, 4], 11, 5, 2⟩, some 0,
        [(9, (9, 9))]⟩ : PlayerState),
       [Output.send 102 (RPC.ReconstructShare 1 (1, 2)),
        Output.send 103 (RPC.ReconstructShare 1 (1, 2))]) ∧
    Player.step (⟨1, [(2, 102)], none, none, []⟩ : PlayerState) (RPC.Reconstruct 0) =
      (some (⟨1, [(2, 102)], none, none, []⟩ : PlayerState), []) :=
  ⟨reconstruct_trigger_frame.1 _ ⟨(1, 2), 3, [1, 5, 4], 11, 5, 2⟩ 0 rfl,
   reconstruct_trigger_frame.2.1 _ 0 rfl⟩

/-- C3 is refuted by the code: `Dealer::new` evaluates `Dealer::gen_a(&q)`
once and `vec![draw; t - 1]` clones that single draw, so with `t = 3` and
draw `7` the coefficient vector is `[1234, 7, 7]` — `a_1 = a_2` always,
never two fresh independent draws. -/
theorem dealer_coeffs_single_draw : Dealer.coeffs 1234 7 3 = some [1234, 7, 7] := by
  decide

/-- C8: for every `t ≥ 2` the coefficient vector of `Dealer::new` is the
secret followed by `t - 1` copies of the one cloned draw `r`, so all
non-constant coefficients `a_1, ..., a_(t-1)` are equal (to `r`). -/
theorem dealer_coeffs_all_equal (secret r t : ℕ) (ht : 2 ≤ t) :
    Dealer.coeffs secret r t = some (secret :: List.replicate (t - 1) r) ∧
    ∀ i, 1 ≤ i → i < t → (secret :: List.replicate (t - 1) r).getD i 0 = r := by
  constructor
  · rw [Dealer.coeffs, if_neg (by omega)]
  · intro i h1 h2
    obtain ⟨j, rfl⟩ : ∃ j, i = j + 1 := ⟨i - 1, by omega⟩
    rw [List.getD_cons_succ]
    rw [List.getD_eq_getElem _ _ (by simp [List.length_replicate]; omega)]
    simp [List.getElem_replicate]

/-- Witness for C8 at `secret = 1234`, `r = 7`, `t = 3`: coefficients
`a_1` and `a_2` both equal `7`. -/
theorem dealer_coeffs_all_equal_holds :
    Dealer.coeffs 1234 7 3 = some (1234 :: List.replicate 2 7) ∧
    (1234 :: List.replicate 2 7).getD 1 0 = 7 ∧
    (1234 :: List.replicate 2 7).getD 2 0 = 7 :=
  ⟨(dealer_coeffs_all_equal 1234 7 3 (by norm_num)).1,
   (dealer_coeffs_all_equal 1234 7 3 (by norm_num)).2 1 (by norm_num) (by norm_num),
   (dealer_coeffs_all_equal 1234 7 3 (by norm_num)).2 2 (by norm_num) (by norm_num)⟩

/-- C10: `Dealer::new` panics for `t = 0` (the `usize` subtraction `t - 1`
underflows, modelled as `none`), and for `t ≥ 1` the coefficient vector
has length `t`, the commitment vector (`Dealer::gen_c`, verbatim
`generate_commitments`) has length `t`, and the share list
(`Dealer::gen_shares`, verbatim `generate_shares`) has length `n`. -/
theorem dealer_new_sizes :
    (∀ secret r : ℕ, Dealer.coeffs secret r 0 = none) ∧
    (∀ secret r t : ℕ, 1 ≤ t →
      Dealer.coeffs secret r t = some (secret :: List.replicate (t - 1) r) ∧
      (secret :: List.replicate (t - 1) r).length = t ∧
      ∀ g p n q : ℕ,
        (generate_commitments (secret :: List.replicate (t - 1) r) g p).length = t ∧
        (generate_shares (secret :: List.replicate (t - 1) r) n q).length = n) := by
  constructor
  · intro secret r
    simp [Dealer.coeffs]
  · intro secret r t ht
    refine ⟨by rw [Dealer.coeffs, if_neg (by omega)], ?_, fun g p n q => ⟨?_, ?_⟩⟩
    · simp only [List.length_cons, List.length_replicate]
      omega
    · simp only [generate_commitments, List.length_map, List.length_cons,
        List.length_replicate]
      omega
    · simp [generate_shares]

/-- Witness for C10: the `t = 0` panic and the concrete sizes at `t = 3`,
`n = 4`. -/
theorem dealer_new_sizes_holds :
    Dealer.coeffs 5 9 0 = none ∧
    (generate_commitments (5 :: List.replicate 2 9) 3 11).length = 3 ∧
    (generate_shares (5 :: List.replicate 2 9) 4 7).length = 4 :=
  ⟨dealer_new_sizes.1 5 9,
   ((dealer_new_sizes.2 5 9 3 (by norm_num)).2.2 3 11 4 7).1,
   ((dealer_new_sizes.2 5 9 3 (by norm_num)).2.2 3 11 4 7).2⟩

/-- The shifted power sum `evalPolyAux` is `x^j` times the polynomial. -/
theorem evalPolyAux_cast {F : Type*} [CommSemiring F] (a : List ℕ) (x : ℕ) :
    ∀ j : ℕ, ((evalPolyAux a x j : ℕ) : F) =
      (x : F) ^ j * (polyOfCoeffs a).eval (x : F) := by
  induction a with
  | nil => intro j; simp [evalPolyAux, polyOfCoeffs]
  | cons c rest ih =>
    intro j
    simp only [evalPolyAux, polyOfCoeffs, Polynomial.eval_add, Polynomial.eval_mul,
      Polynomial.eval_C, Polynomial.eval_X]
    push_cast
    rw [ih (j + 1)]
    ring

/-- `eval_poly_at a x` reduced into the field is the polynomial value. -/
theorem eval_poly_at_cast {F : Type*} [CommSemiring F] (a : List ℕ) (x : ℕ) :
    ((eval_poly_at a x : ℕ) : F) = (polyOfCoeffs a).eval (x : F) := by
  simpa [eval_poly_at] using evalPolyAux_cast (F := F) a x 0

/-- `polyOfCoeffs a` has no coefficients at or beyond `a.length`. -/
theorem polyOfCoeffs_coeff_zero {F : Type*} [Semiring F] :
    ∀ (a : List ℕ) (m : ℕ), a.length ≤ m → (polyOfCoeffs (F := F) a).coeff m = 0 := by
  intro a
  induction a with
  | nil => intro m _; simp [polyOfCoeffs]
  | cons c rest ih =>
    intro m hm
    simp only [List.length_cons] at hm
    obtain ⟨m', rfl⟩ : ∃ k, m = k + 1 := ⟨m - 1, by omega⟩
    simp only [polyOfCoeffs, Polynomial.coeff_add, Polynomial.coeff_X_mul,
      Polynomial.coeff_C]
    rw [if_neg (by omega), ih m' (by omega)]
    simp

/-- `polyOfCoeffs a` has degree below the coefficient count. -/
theorem polyOfCoeffs_degree_lt {F : Type*} [Semiring F] (a : List ℕ) :
    (polyOfCoeffs (F := F) a).degree < (a.length : ℕ) := by
  refine (Polynomial.degree_lt_iff_coeff_zero _ _).mpr ?_
  intro m hm
  exact polyOfCoeffs_coeff_zero a m (by exact_mod_cast hm)

/-- The constant term of `polyOfCoeffs` is the leading list entry. -/
theorem polyOfCoeffs_eval_zero {F : Type*} [CommSemiring F] (c : ℕ) (rest : List ℕ) :
    (polyOfCoeffs (F := F) (c :: rest)).eval 0 = (c : F) := by
  simp [polyOfCoeffs, Polynomial.eval_mul]

/-- Evaluating the Lagrange interpolant of `f` at `0`: the coefficient of
each node value `f(x)` is `Π_(y ≠ x) y / (y - x)`, exactly the product
`reconstruct` accumulates. -/
theorem interp_at_zero {F : Type*} [Field F] [DecidableEq F] (f : Polynomial F)
    (s : Finset ℕ) (v : ℕ → F) (hinj : Set.InjOn v s) (hdeg : f.degree < s.card) :
    ∑ x ∈ s, f.eval (v x) * ∏ y ∈ s.erase x, (v y * (v y - v x)⁻¹) = f.eval 0 := by
  have hi := Lagrange.eq_interpolate hinj hdeg
  conv_rhs => rw [hi]
  rw [Lagrange.interpolate_apply, Polynomial.eval_finset_sum]
  refine Finset.sum_congr rfl fun x hx => ?_
  rw [Polynomial.eval_mul, Polynomial.eval_C]
  congr 1
  simp only [Lagrange.basis, Polynomial.eval_prod]
  refine Finset.prod_congr rfl fun y hy => ?_
  simp only [Lagrange.basisDivisor, Polynomial.eval_mul, Polynomial.eval_C,
    Polynomial.eval_sub, Polynomial.eval_X]
  rw [zero_sub, ← neg_sub (v y) (v x), inv_neg]
  ring

/-- Integer reduction modulo `q` disappears under the cast into `ZMod q`. -/
theorem intCast_emod_natCast (a : ℤ) (q : ℕ) :
    ((a % (q : ℤ) : ℤ) : ZMod q) = (a : ZMod q) :=
  (ZMod.intCast_eq_intCast_iff _ _ _).mpr (int_emod_modEq a (q : ℤ))

/-- In `ZMod q`, the inner loop of `reconstruct` computes the Lagrange
coefficient `Π_(x_m ≠ x_j) x_m (x_m - x_j)⁻¹`, provided each delta is
coprime to `q`. -/
theorem lagrangeProd_cast (q xj : ℕ) (sub : List (ℕ × ℕ)) (hq : q.Prime)
    (hcop : ∀ pm ∈ sub, pm.1 ≠ xj → Int.gcd ((pm.1 : ℤ) - (xj : ℤ)) q = 1) :
    ((lagrangeProd sub xj q : ℤ) : ZMod q) =
      (sub.map fun pm =>
        if pm.1 ≠ xj then (pm.1 : ZMod q) * ((pm.1 : ZMod q) - (xj : ZMod q))⁻¹
        else 1).prod := by
  suffices h : ∀ (L : List (ℕ × ℕ)) (p0 : ℤ),
      (∀ pm ∈ L, pm.1 ≠ xj → Int.gcd ((pm.1 : ℤ) - (xj : ℤ)) q = 1) →
      ((List.foldl
        (fun prod pm =>
          if pm.1 ≠ xj then
            (prod * div_mod_p (pm.1 : ℤ) ((pm.1 : ℤ) - (xj : ℤ)) q) % (q : ℤ)
          else prod)
        p0 L : ℤ) : ZMod q) =
      ((p0 : ℤ) : ZMod q) *
        (L.map fun pm =>
          if pm.1 ≠ xj then (pm.1 : ZMod q) * ((pm.1 : ZMod q) - (xj : ZMod q))⁻¹
          else 1).prod by
    simpa [lagrangeProd] using h sub 1 hcop
  intro L
  induction L with
  | nil => intro p0 _; simp
  | cons pm rest ih =>
    intro p0 hc
    simp only [List.foldl_cons, List.map_cons, List.prod_cons]
    by_cases hne : pm.1 ≠ xj
    · rw [if_pos hne, if_pos hne,
        ih _ fun x hx hx2 => hc x (List.mem_cons_of_mem _ hx) hx2]
      have hdc := div_mod_p_cast (pm.1 : ℤ) ((pm.1 : ℤ) - (xj : ℤ)) q hq.pos
        (hc pm (List.mem_cons_self _ _) hne)
      rw [intCast_emod_natCast, Int.cast_mul, hdc]
      push_cast
      ring
    · rw [if_neg hne, if_neg hne,
        ih _ fun x hx hx2 => hc x (List.mem_cons_of_mem _ hx) hx2]
      ring

/-- In `ZMod q`, the outer loop of `reconstruct` computes the Lagrange
interpolation sum `Σ_j y_j · Π_(x_m ≠ x_j) x_m (x_m - x_j)⁻¹`. -/
theorem reconstructInt_cast (q : ℕ) (sub : List (ℕ × ℕ)) (hq : q.Prime)
    (hcop : ∀ pj ∈ sub, ∀ pm ∈ sub, pm.1 ≠ pj.1 →
      Int.gcd ((pm.1 : ℤ) - (pj.1 : ℤ)) q = 1) :
    ((reconstructInt sub q : ℤ) : ZMod q) =
      (sub.map fun pj => (pj.2 : ZMod q) *
        (sub.map fun pm =>
          if pm.1 ≠ pj.1 then (pm.1 : ZMod q) * ((pm.1 : ZMod q) - (pj.1 : ZMod q))⁻¹
          else 1).prod).sum := by
  suffices h : ∀ (L : List (ℕ × ℕ)) (s0 : ℤ),
      (∀ pj ∈ L, ∀ pm ∈ sub, pm.1 ≠ pj.1 →
        Int.gcd ((pm.1 : ℤ) - (pj.1 : ℤ)) q = 1) →
      ((List.foldl
        (fun secret pj => (secret + (pj.2 : ℤ) * lagrangeProd sub pj.1 q) % (q : ℤ))
        s0 L : ℤ) : ZMod q) =
      ((s0 : ℤ) : ZMod q) +
        (L.map fun pj => (pj.2 : ZMod q) *
          (sub.map fun pm =>
            if pm.1 ≠ pj.1 then (pm.1 : ZMod q) * ((pm.1 : ZMod q) - (pj.1 : ZMod q))⁻¹
            else 1).prod).sum by
    simpa [reconstructInt] using h sub 0 hcop
  intro L
  induction L with
  | nil => intro s0 _; simp
  | cons pj rest ih =>
    intro s0 hc
    simp only [List.foldl_cons, List.map_cons, List.sum_cons]
    rw [ih _ fun x hx => hc x (List.mem_cons_of_mem _ hx)]
    rw [intCast_emod_natCast, Int.cast_add, Int.cast_mul,
      lagrangeProd_cast q pj.1 sub hq (hc pj (List.mem_cons_self _ _))]
    push_cast
    ring

/-- Membership in `generate_shares` pins the x-coordinate into `[1, n]` and
the y-coordinate to the reduced polynomial value. -/
theorem mem_generate_shares (a : List ℕ) (n q : ℕ) (xy : ℕ × ℕ)
    (h : xy ∈ generate_shares a n q) :
    1 ≤ xy.1 ∧ xy.1 ≤ n ∧ xy.2 = eval_poly_at a xy.1 % q := by
  obtain ⟨i, hi, rfl⟩ := List.mem_map.mp h
  rw [List.mem_range] at hi
  exact ⟨by omega, by omega, rfl⟩

/-- Distinct shares drawn from `generate_shares` have distinct
x-coordinates (the y-coordinate is a function of the x-coordinate). -/
theorem sub_fst_nodup (a : List ℕ) (n q : ℕ) (sub : List (ℕ × ℕ))
    (hmem : ∀ p ∈ sub, p ∈ generate_shares a n q) (hnd : sub.Nodup) :
    (sub.map Prod.fst).Nodup := by
  refine List.Nodup.map_on ?_ hnd
  intro p1 h1 p2 h2 hfst
  have e1 := (mem_generate_shares a n q p1 (hmem p1 h1)).2.2
  have e2 := (mem_generate_shares a n q p2 (hmem p2 h2)).2.2
  exact Prod.ext hfst (by rw [e1, e2, hfst])

/-- A Lagrange delta of two distinct x-coordinates in `[1, n]` with
`n < q` is coprime to the prime `q`. -/
theorem delta_gcd_one (q n x1 x2 : ℕ) (hq : q.Prime) (hn : n < q)
    (h1 : 1 ≤ x1) (h1n : x1 ≤ n) (h2 : 1 ≤ x2) (h2n : x2 ≤ n) (hne : x1 ≠ x2) :
    Int.gcd ((x1 : ℤ) - (x2 : ℤ)) q = 1 := by
  have hb0 : ((x1 : ℤ) - (x2 : ℤ)) ≠ 0 := by omega
  have hd : Int.gcd ((x1 : ℤ) - (x2 : ℤ)) q ∣ q := by
    have h := Int.gcd_dvd_right (a := (x1 : ℤ) - (x2 : ℤ)) (b := (q : ℤ))
    exact_mod_cast h
  rcases hq.eq_one_or_self_of_dvd _ hd with h | h
  · exact h
  · exfalso
    have hgb : (↑(Int.gcd ((x1 : ℤ) - (x2 : ℤ)) q) : ℤ) ∣ (x1 : ℤ) - (x2 : ℤ) :=
      Int.gcd_dvd_left
    rw [h] at hgb
    have hdn : q ∣ ((x1 : ℤ) - (x2 : ℤ)).natAbs := by
      have h2 := Int.natAbs_dvd_natAbs.mpr hgb
      simpa using h2
    have hle : q ≤ ((x1 : ℤ) - (x2 : ℤ)).natAbs := Nat.le_of_dvd (by omega) hdn
    omega

/-- Threshold reconstruction: any `t` distinct shares drawn from the `n`
generated over the degree-`(t-1)` polynomial with coefficients
`s :: rest` recover the secret `s`.  This is the interpolation core shared
by the two universally-quantified parts of C2. -/
theorem reconstruct_subset_eq (q s n : ℕ) (rest : List ℕ) (sub : List (ℕ × ℕ))
    (hq : q.Prime) (ha : ∀ ai ∈ s :: rest, ai < q)
    (htn : (s :: rest).length ≤ n) (hnq : n < q)
    (hmem : ∀ p ∈ sub, p ∈ generate_shares (s :: rest) n q)
    (hnd : sub.Nodup) (hlen : sub.length = (s :: rest).length) :
    reconstruct sub q = some s := by
  haveI : Fact q.Prime := ⟨hq⟩
  have hxnd : (sub.map Prod.fst).Nodup := sub_fst_nodup _ n q sub hmem hnd
  have hbound : ∀ x ∈ sub.map Prod.fst, 1 ≤ x ∧ x ≤ n := by
    intro x hx
    obtain ⟨p, hp, rfl⟩ := List.mem_map.mp hx
    have h := mem_generate_shares _ n q p (hmem p hp)
    exact ⟨h.1, h.2.1⟩
  have hcop : ∀ pj ∈ sub, ∀ pm ∈ sub, pm.1 ≠ pj.1 →
      Int.gcd ((pm.1 : ℤ) - (pj.1 : ℤ)) q = 1 := by
    intro pj hpj pm hpm hne
    have hj := mem_generate_shares _ n q pj (hmem pj hpj)
    have hm := mem_generate_shares _ n q pm (hmem pm hpm)
    exact delta_gcd_one q n pm.1 pj.1 hq hnq hm.1 hm.2.1 hj.1 hj.2.1 hne
  have hScard : (sub.map Prod.fst).toFinset.card = (s :: rest).length := by
    rw [List.toFinset_card_of_nodup hxnd, List.length_map, hlen]
  have hinj : Set.InjOn (fun x : ℕ => (x : ZMod q)) (sub.map Prod.fst).toFinset := by
    intro x hx y hy hxy
    have hxb := hbound x (List.mem_toFinset.mp hx)
    have hyb := hbound y (List.mem_toFinset.mp hy)
    have hv : ((x : ℕ) : ZMod q).val = ((y : ℕ) : ZMod q).val := by
      simp only at hxy
      rw [hxy]
    rwa [ZMod.val_cast_of_lt (by omega), ZMod.val_cast_of_lt (by omega)] at hv
  have hterm : ∀ pj ∈ sub,
      (pj.2 : ZMod q) *
        (sub.map fun pm =>
          if pm.1 ≠ pj.1 then (pm.1 : ZMod q) * ((pm.1 : ZMod q) - (pj.1 : ZMod q))⁻¹
          else 1).prod =
      (fun x : ℕ => (polyOfCoeffs (s :: rest)).eval ((x : ℕ) : ZMod q) *
        ∏ y ∈ (sub.map Prod.fst).toFinset.erase x,
          ((y : ZMod q) * ((y : ZMod q) - (x : ZMod q))⁻¹)) pj.1 := by
    intro pj hpj
    have hb := mem_generate_shares _ n q pj (hmem pj hpj)
    have h2 : (pj.2 : ZMod q) = (polyOfCoeffs (s :: rest)).eval ((pj.1 : ℕ) : ZMod q) := by
      rw [hb.2.2, ZMod.natCast_mod, eval_poly_at_cast]
    have h3 : (sub.map fun pm =>
        if pm.1 ≠ pj.1 then (pm.1 : ZMod q) * ((pm.1 : ZMod q) - (pj.1 : ZMod q))⁻¹
        else 1).prod =
        ∏ y ∈ (sub.map Prod.fst).toFinset.erase pj.1,
          ((y : ZMod q) * ((y : ZMod q) - (pj.1 : ZMod q))⁻¹) := by
      rw [show (fun pm : ℕ × ℕ =>
          if pm.1 ≠ pj.1 then (pm.1 : ZMod q) * ((pm.1 : ZMod q) - (pj.1 : ZMod q))⁻¹
          else 1) =
          (fun x : ℕ =>
            if x ≠ pj.1 then (x : ZMod q) * ((x : ZMod q) - (pj.1 : ZMod q))⁻¹
            else 1) ∘ Prod.fst from rfl]
      rw [← List.map_map, ← List.prod_toFinset _ hxnd, ← Finset.prod_filter,
        Finset.filter_ne']
    rw [h2, h3]
  have hsum : ((reconstructInt sub q : ℤ) : ZMod q) = (s : ZMod q) := by
    rw [reconstructInt_cast q sub hq hcop, List.map_congr_left hterm]
    rw [show (fun pj : ℕ × ℕ =>
        (fun x : ℕ => (polyOfCoeffs (s :: rest)).eval ((x : ℕ) : ZMod q) *
          ∏ y ∈ (sub.map Prod.fst).toFinset.erase x,
            ((y : ZMod q) * ((y : ZMod q) - (x : ZMod q))⁻¹)) pj.1) =
        (fun x : ℕ => (polyOfCoeffs (s :: rest)).eval ((x : ℕ) : ZMod q) *
          ∏ y ∈ (sub.map Prod.fst).toFinset.erase x,
            ((y : ZMod q) * ((y : ZMod q) - (x : ZMod q))⁻¹)) ∘ Prod.fst from rfl]
    rw [← List.map_map, ← List.sum_toFinset _ hxnd]
    rw [interp_at_zero (polyOfCoeffs (s :: rest)) (sub.map Prod.fst).toFinset
      (fun x : ℕ => (x : ZMod q)) hinj (by rw [hScard]; exact polyOfCoeffs_degree_lt _)]
    exact polyOfCoeffs_eval_zero s rest
  have hnn := reconstructInt_nonneg sub q
  have hlt := reconstructInt_lt sub q hq.pos
  rw [reconstruct_eq_some]
  congr 1
  have hcast : (((reconstructInt sub q).toNat : ℕ) : ZMod q) = (s : ZMod q) := by
    rw [← Int.cast_natCast (R := ZMod q), Int.toNat_of_nonneg hnn, hsum]
  have hv := congrArg ZMod.val hcast
  have hsq : s < q := ha s (List.mem_cons_self _ _)
  rwa [ZMod.val_cast_of_lt (by omega), ZMod.val_cast_of_lt hsq] at hv

/-- C2: for a prime `q`, coefficients `s :: rest` all in `[0, q)` of
length `t`, and `t ≤ n < q`, `reconstruct` applied to any subset of
exactly `t` distinct shares out of `generate_shares (s :: rest) n q`
returns exactly the secret `s`; in particular
`reconstruct [(2,1942),(4,3402),(5,4414)] 13931 = 1234`, and any two
distinct t-subsets of the same share set reconstruct the identical
secret. -/
theorem reconstruct_threshold_subsets :
    (∀ (q s n : ℕ) (rest : List ℕ) (sub : List (ℕ × ℕ)),
      q.Prime → (∀ ai ∈ s :: rest, ai < q) → (s :: rest).length ≤ n → n < q →
      (∀ p ∈ sub, p ∈ generate_shares (s :: rest) n q) → sub.Nodup →
      sub.length = (s :: rest).length →
      reconstruct sub q = some s) ∧
    reconstruct [(2, 1942), (4, 3402), (5, 4414)] 13931 = some 1234 ∧
    (∀ (q s n : ℕ) (rest : List ℕ) (sub1 sub2 : List (ℕ × ℕ)),
      q.Prime → (∀ ai ∈ s :: rest, ai < q) → (s :: rest).length ≤ n → n < q →
      (∀ p ∈ sub1, p ∈ generate_shares (s :: rest) n q) → sub1.Nodup →
      sub1.length = (s :: rest).length →
      (∀ p ∈ sub2, p ∈ generate_shares (s :: rest) n q) → sub2.Nodup →
      sub2.length = (s :: rest).length → sub1 ≠ sub2 →
      reconstruct sub1 q = reconstruct sub2 q) := by
  refine ⟨fun q s n rest sub hq ha htn hnq hmem hnd hlen =>
    reconstruct_subset_eq q s n rest sub hq ha htn hnq hmem hnd hlen, by decide, ?_⟩
  intro q s n rest sub1 sub2 hq ha htn hnq hm1 hn1 hl1 hm2 hn2 hl2 _
  rw [reconstruct_subset_eq q s n rest sub1 hq ha htn hnq hm1 hn1 hl1,
    reconstruct_subset_eq q s n rest sub2 hq ha htn hnq hm2 hn2 hl2]

/-- Witness for C2 at `q = 5`, coefficients `[1, 2, 3]`, `n = 4`: the
three shares `(1,1), (2,2), (3,4)` out of the four generated reconstruct
the secret `1`. -/
theorem reconstruct_threshold_subsets_holds :
    reconstruct [(1, 1), (2, 2), (3, 4)] 5 = some 1 :=
  reconstruct_threshold_subsets.1 5 1 4 [2, 3] [(1, 1), (2, 2), (3, 4)]
    (by norm_num) (by decide) (by norm_num) (by norm_num) (by decide) (by decide)
    (by decide)

example : generate_shares [1, 2, 3] 4 5 = [(1, 1), (2, 2), (3, 4), (4, 2)] := by decide

example : generate_commitments [3, 5, 8] 3 11 = [5, 1, 5] := by decide

example : ∀ p ∈ generate_shares [0, 3, 4] 5 5,
    verify_share p.1 p.2 3 [1, 5, 4] 11 = true := by decide

example : reconstruct [(2, 1942), (4, 3402), (5, 4414)] 13931 = some 1234 := by decide

example : eval_poly_at [1, 2, 3] 3 = 34 := by decide
